import Mathlib

/-!
# Verification of the `git-log` issue-report pipeline

A shallow embedding of the core pipeline of the `git-log` utility
(`src/helpers.js`, `src/commands.js`, `src/formatters.js`): code
extraction from commit summaries, grouping by issue code, metadata
fetching with failure absorption, and aggregation into issue records.

Strings handled by the regular expression `/\w+-\d+/g` are modelled as
`List Char`; dates (`moment` objects, compared via numeric subtraction
of their epoch values) are modelled as `Int`.
-/

namespace GitLog

/-- A commit record as produced by `getCommitsUntil`:
`{date: moment(commit.date()), author: ..., summary: ...}`.
The date is the commit timestamp (epoch value of the moment object). -/
structure Commit where
  date : Int
  author : String
  summary : List Char
deriving DecidableEq, Repr

/-- JavaScript word character class `\w`, i.e. `[A-Za-z0-9_]`. -/
def wordChar (c : Char) : Bool :=
  c.isAlphanum || c = '_'

/-- Attempt to match the regular expression `\w+-\d+` at the start of `s`.
`\w+` is greedy and must be followed by the literal `-`; since no proper
prefix of a maximal word-character run is followed by `-`, backtracking
inside `\w+` can never succeed, so taking the maximal run is faithful.
`\d+` greedily takes the maximal digit run. Returns the matched text and
the remainder of the string after the match. -/
def matchAt (s : List Char) : Option (List Char × List Char) :=
  let w := s.takeWhile wordChar
  let r := s.dropWhile wordChar
  if w.isEmpty then none
  else
    match r with
    | '-' :: r2 =>
      let d := r2.takeWhile Char.isDigit
      if d.isEmpty then none
      else some (w ++ '-' :: d, r2.dropWhile Char.isDigit)
    | _ => none

/-- Find the leftmost match of `\w+-\d+` in `s` and return the remainder
of the string after it, scanning candidate start positions left to right. -/
def firstMatchRest : List Char → Option (List Char)
  | [] => none
  | c :: rest =>
    match matchAt (c :: rest) with
    | some (_, r) => some r
    | none => firstMatchRest rest

/-- Whether `s` contains at least one substring matching `\w+-\d+`. -/
def hasJiraCode (s : List Char) : Bool :=
  (firstMatchRest s).isSome

/-- Fuelled scanner collecting all successive non-overlapping matches. -/
def findMatchesAux : Nat → List Char → List (List Char)
  | 0, _ => []
  | _, [] => []
  | fuel + 1, c :: rest =>
    match matchAt (c :: rest) with
    | some (m, r) => m :: findMatchesAux fuel r
    | none => findMatchesAux fuel rest

/-- `s.match(/\w+-\d+/g)` as a list: all non-overlapping matches, left to
right (the empty list standing for JavaScript's `null` result). Every
scanner step consumes at least one character, so `s.length` fuel is
enough. -/
def findMatches (s : List Char) : List (List Char) :=
  findMatchesAux s.length s

/-- One call of `regex.test(s)` on the shared global regex
`/\w+-\d+/g` of `filterMissingJiras`, starting the search at the
persisted `lastIndex`. Returns the boolean result together with the
updated `lastIndex`: the end position of the match on success, `0` on
failure (per the ECMAScript `RegExp.prototype.exec` algorithm the index
is reset when no match is found). -/
def jsTestG (s : List Char) (lastIndex : Nat) : Bool × Nat :=
  match firstMatchRest (s.drop lastIndex) with
  | some r => (true, s.length - r.length)
  | none => (false, 0)

/-- `filterMissingJiras`, threading the `lastIndex` state of the single
global regex created once before the `filter` callback runs:
`const regex = /\w+-\d+/g; return commits.filter((commit) => regex.test(commit.summary));`. -/
def filterMissingJirasAux : List Commit → Nat → List Commit
  | [], _ => []
  | c :: rest, lastIndex =>
    let t := jsTestG c.summary lastIndex
    if t.1 then c :: filterMissingJirasAux rest t.2
    else filterMissingJirasAux rest t.2

/-- `filterMissingJiras(commits)` from `src/helpers.js`. -/
def filterMissingJiras (commits : List Commit) : List Commit :=
  filterMissingJirasAux commits 0

/-- A `CodeGroup`: the JavaScript object mapping uppercased codes to
arrays of commits, modelled as an association list in key insertion
order (no extracted code is an array index, every code contains `-`,
so JavaScript object key order is exactly insertion order). -/
abbrev CodeGroup : Type :=
  List (List Char × List Commit)

/-- `if (!jiraMap[code]) { jiraMap[code] = []; } jiraMap[code].push(commit);`:
append the commit to the code's group, creating the group (at the end of
the key order) when absent. -/
def insertAppend : CodeGroup → List Char → Commit → CodeGroup
  | [], k, c => [(k, [c])]
  | (k', g) :: rest, k, c =>
    if k' = k then (k', g ++ [c]) :: rest
    else (k', g) :: insertAppend rest k c

/-- The uppercased codes extracted from one commit's summary:
`commit.summary.match(/\w+-\d+/g)`, each match upper-cased. -/
def codesOf (c : Commit) : List (List Char) :=
  (findMatches c.summary).map (List.map Char.toUpper)

/-- Process one commit of the `forEach` of `mapCommitsToJiras`. -/
def addCommitCodes (m : CodeGroup) (c : Commit) : CodeGroup :=
  (codesOf c).foldl (fun m code => insertAppend m code c) m

/-- `mapCommitsToJiras(commits)` from `src/helpers.js`. -/
def mapCommitsToJiras (commits : List Commit) : CodeGroup :=
  commits.foldl addCommitCodes []

/-- Object key lookup `jiraMap[code]` (on a `CodeGroup`). -/
def lookupGroup (m : CodeGroup) (k : List Char) : Option (List Commit) :=
  match m.find? (fun e => e.1 = k) with
  | some e => some e.2
  | none => none

/-- `Object.keys(jiraMap)` in key insertion order. -/
def keysOf (m : CodeGroup) : List (List Char) :=
  m.map (fun e => e.1)

/-! ## Metadata fetching (`fetchJiraMetadata`) -/

/-- One entry of `issue.fields.fixVersions`. -/
structure FixVersion where
  name : String
deriving DecidableEq, Repr

/-- `issue.fields.status`. -/
structure IssueStatus where
  name : String
deriving DecidableEq, Repr

/-- `issue.fields.assignee` (possibly `null`). -/
structure Assignee where
  displayName : String
deriving DecidableEq, Repr

/-- The `fields` object of a Jira REST issue response. -/
structure IssueFields where
  summary : String
  status : IssueStatus
  fixVersions : List FixVersion
  assignee : Option Assignee
deriving DecidableEq, Repr

/-- A successful `client.findIssue(code)` response. -/
structure Issue where
  fields : IssueFields
deriving DecidableEq, Repr

/-- The metadata object built by `fetchJiraMetadata` on success. -/
structure JiraMeta where
  title : String
  status : String
  fixVersions : String
  assignee : String
deriving DecidableEq, Repr

/-- `fetchJiraMetadata(code, client)` from `src/helpers.js`, applied to
the settled outcome of `client.findIssue(code)` (success value or any
rejection). `fixVersions.map((fv) => fv.name).join(', ') || 'No Fix Version'`
substitutes the default exactly when the joined string is empty (the
only falsy string), and a missing assignee yields `'Unassigned'`; the
`.catch(() => null)` turns every error into the absent sentinel. -/
def fetchJiraMetadata (resp : Except Unit Issue) : Option JiraMeta :=
  match resp with
  | Except.error _ => none
  | Except.ok issue =>
    let joined := String.intercalate ", " (issue.fields.fixVersions.map (fun fv => fv.name))
    some
      { title := issue.fields.summary
        status := issue.fields.status.name
        fixVersions := if joined = "" then "No Fix Version" else joined
        assignee :=
          match issue.fields.assignee with
          | some a => a.displayName
          | none => "Unassigned" }

/-! ## Aggregation (`aggregateJiraMetadata`) -/

/-- The comparator `(a, b) => b.date - a.date`: `a` may precede `b`
exactly when `b.date - a.date ≤ 0`, i.e. `b.date ≤ a.date`. -/
def dateGe (a b : Commit) : Prop :=
  b.date ≤ a.date

instance : DecidableRel dateGe := fun a b =>
  inferInstanceAs (Decidable (b.date ≤ a.date))

instance : IsTotal Commit dateGe :=
  ⟨fun a b => le_total b.date a.date⟩

instance : IsTrans Commit dateGe :=
  ⟨fun _ _ _ h1 h2 => le_trans h2 h1⟩

/-- `commitList.sort((a, b) => b.date - a.date)`: a stable sort putting
the most recent commit first (modelled with insertion sort; every claim
below is invariant under the choice of stable sorting algorithm). -/
def sortByDateDesc (l : List Commit) : List Commit :=
  List.insertionSort dateGe l

/-- `[...new Set(l)]`: JavaScript `Set` iteration order is insertion
order, so the spread keeps the first occurrence of each element.
Generalised over the already-seen set for the recursion. -/
def setSpread {α : Type} [DecidableEq α] (seen : List α) : List α → List α
  | [] => []
  | a :: rest =>
    if a ∈ seen then setSpread seen rest
    else a :: setSpread (a :: seen) rest

/-- `[...new Set(commitList.map((commit) => commit.author))]` — note the
object literal evaluates `lastCommitDate` first, whose `sort` mutates
`commitList` in place, so the authors are read from the sorted list. -/
def devList (sortedCommits : List Commit) : List String :=
  setSpread [] (sortedCommits.map (fun c => c.author))

/-- One aggregated `IssueRecord` pushed onto `jiraList`. -/
structure IssueRecord where
  code : List Char
  lastCommitDate : Int
  developers : String
  commits : Nat
  title : String
  status : String
  fixVersions : String
  assignee : String
deriving DecidableEq, Repr

/-- The record literal pushed by `aggregateJiraMetadata` for one code
with its commit group and successfully fetched metadata. Reading
`sort(...)[0].date` of an empty group would throw a `TypeError` in the
source (`undefined.date`), modelled as `none`. -/
def aggRecord (code : List Char) (commitList : List Commit) (jira : JiraMeta) :
    Option IssueRecord :=
  match sortByDateDesc commitList with
  | [] => none
  | first :: _ =>
    some
      { code := code
        lastCommitDate := first.date
        developers := String.intercalate ", " (devList (sortByDateDesc commitList))
        commits := commitList.length
        title := jira.title
        status := jira.status
        fixVersions := jira.fixVersions
        assignee := jira.assignee }

/-- The `.then` continuation of one code's fetch inside
`aggregateJiraMetadata`: `if (jira) { ... jiraList.push({...}) }`
applied to the settled fetch outcome, yielding the record pushed for
this code (or nothing when the fetch resolved to the absent sentinel). -/
def aggStep (jiraMap : CodeGroup) (fetch : List Char → Option JiraMeta)
    (code : List Char) : Option IssueRecord :=
  match fetch code with
  | none => none
  | some jira =>
    match lookupGroup jiraMap code with
    | none => none
    | some commitList => aggRecord code commitList jira

/-- `aggregateJiraMetadata(jiraMap, client)` from `src/helpers.js`.

The function maps `fetchJiraMetadata` over `Object.keys(jiraMap)` and
each fetch's `.then` pushes its record onto the shared `jiraList`, so
records are appended in the order the individual fetch promises settle,
which the event loop does not constrain to the key order. The settled
outcome of each fetch is `fetch code` (`none` for an absorbed failure),
and `schedule` is the settlement order of the codes — a permutation of
the keys. `Promise.all` then resolves the accumulated list. -/
def aggregateJiraMetadata (jiraMap : CodeGroup) (fetch : List Char → Option JiraMeta)
    (schedule : List (List Char)) : List IssueRecord :=
  schedule.filterMap (aggStep jiraMap fetch)

/-! ## Presenter and pipeline (`generateJiraTermTable`, `listJira`) -/

/-- The cell row pushed onto the terminal table for one record (the
moment date formatting is external; the date cell is abstracted to the
printed epoch value). -/
def renderRow (r : IssueRecord) : List String :=
  [r.code.asString, r.status, r.title, toString r.lastCommitDate,
    r.developers, toString r.commits, r.fixVersions, r.assignee]

/-- `generateJiraTermTable(jiraList)` from `src/formatters.js`, as the
list of rows it prints. When the pipeline's `.catch` handler has run,
the argument is `undefined` (`none`) and `jiraList.forEach` throws a
`TypeError` before `console.log(table.toString())` is reached, so
nothing is printed (`Except.error`). -/
def generateJiraTermTable : Option (List IssueRecord) → Except Unit (List (List String))
  | none => Except.error ()
  | some l => Except.ok (l.map renderRow)

/-- Observable outcome of one `listJira` run: the lines printed by the
`.catch` handler (`console.log(err.message)`) and the table rendering
outcome. -/
structure RunResult where
  errOutput : List String
  table : Except Unit (List (List String))
deriving Repr

/-- `listJira(args)` from `src/commands.js`, applied to the settled
outcome of `getCommitsUntil` (the commit list, or the error message of
a traversal failure — repository missing, not a repository, or zero
commits). On failure the `.catch` prints the message and passes
`undefined` on to the table step; on success the filter / group /
aggregate stages run. -/
def listJira (traversal : Except String (List Commit))
    (fetch : List Char → Option JiraMeta) (schedule : List (List Char)) : RunResult :=
  match traversal with
  | Except.error msg =>
    { errOutput := [msg], table := generateJiraTermTable none }
  | Except.ok commits =>
    { errOutput := []
      table := generateJiraTermTable
        (some (aggregateJiraMetadata (mapCommitsToJiras (filterMissingJiras commits))
          fetch schedule)) }

/-! ## Spec-side characterizations

Definitions following the spec's wording, for comparison with the
source embeddings above. -/

/-- All uppercased codes occurring in a commit sequence, in encounter
order (left to right within each summary, commits in sequence order). -/
def allCodes (commits : List Commit) : List (List Char) :=
  commits.flatMap codesOf

/-- Spec wording for the key order of the grouping result: each code in
the order of its first encounter across the commit sequence. -/
def specKeyOrder (commits : List Commit) : List (List Char) :=
  setSpread [] (allCodes commits)

/-- Spec wording for the group of a code `k`: the commits in encounter
order, each appearing once per occurrence of `k` among its summary's
(uppercased) matches. -/
def specGroup (commits : List Commit) (k : List Char) : List Commit :=
  commits.flatMap (fun c => ((codesOf c).filter (fun k' => k' = k)).map (fun _ => c))

/-- Group lookup defaulting to the empty group for an absent key. -/
def lookupGroupD (m : CodeGroup) (k : List Char) : List Commit :=
  (lookupGroup m k).getD []

/-! ## Concrete sample data -/

/-- A commit whose summary contains the code `ABC-1`. -/
def commitA : Commit :=
  { date := 1, author := "Alice", summary := "fix ABC-1".toList }

/-- A second commit with the same summary text as `commitA`. -/
def commitB : Commit :=
  { date := 2, author := "Bob", summary := "fix ABC-1".toList }

/-- A commit whose summary contains the code `DEF-2`. -/
def commitC : Commit :=
  { date := 3, author := "Alice", summary := "see DEF-2".toList }

/-- The uppercased code `ABC-1`. -/
def codeABC : List Char :=
  ['A', 'B', 'C', '-', '1']

/-- The uppercased code `DEF-2`. -/
def codeDEF : List Char :=
  ['D', 'E', 'F', '-', '2']

/-- Sample fetched metadata. -/
def metaSample : JiraMeta :=
  { title := "T1", status := "Open", fixVersions := "No Fix Version",
    assignee := "Unassigned" }

/-- A sample `CodeGroup` with two codes. -/
def sampleMap : CodeGroup :=
  [(codeABC, [commitA, commitB]), (codeDEF, [commitC])]

/-- A fetch outcome assignment where every lookup succeeds. -/
def fetchAll : List Char → Option JiraMeta :=
  fun _ => some metaSample

/-- A fetch outcome assignment where the lookup of `DEF-2` fails. -/
def fetchNoDEF : List Char → Option JiraMeta :=
  fun k => if k = codeDEF then none else some metaSample

/-- The record the aggregator produces for `ABC-1` from `sampleMap`
under `fetchAll`. -/
def recordABC : IssueRecord :=
  { code := codeABC, lastCommitDate := 2, developers := "Bob, Alice",
    commits := 2, title := "T1", status := "Open",
    fixVersions := "No Fix Version", assignee := "Unassigned" }

/-- A sample issue response with no fix versions and no assignee. -/
def issueBare : Issue :=
  { fields :=
      { summary := "T1", status := { name := "Open" }, fixVersions := [],
        assignee := none } }

/-! ## Helper lemmas -/

theorem mem_setSpread {α : Type} [DecidableEq α] (l : List α) :
    ∀ (seen : List α) (a : α), a ∈ setSpread seen l ↔ a ∈ l ∧ a ∉ seen := by
  induction l with
  | nil => intro seen a; simp [setSpread]
  | cons b rest ih =>
    intro seen a
    by_cases hb : b ∈ seen
    · rcases eq_or_ne a b with rfl | hab
      · simp [setSpread, if_pos hb, ih, hb]
      · simp [setSpread, if_pos hb, ih, hab]
    · rcases eq_or_ne a b with rfl | hab
      · simp [setSpread, if_neg hb, hb]
      · simp only [setSpread, if_neg hb, List.mem_cons, hab, false_or, ih]

theorem nodup_setSpread {α : Type} [DecidableEq α] (l : List α) :
    ∀ seen : List α, (setSpread seen l).Nodup := by
  induction l with
  | nil => intro seen; simp [setSpread]
  | cons b rest ih =>
    intro seen
    by_cases hb : b ∈ seen
    · simpa [setSpread, if_pos hb] using ih seen
    · rw [setSpread, if_neg hb]
      refine List.nodup_cons.mpr ⟨fun hmem => ?_, ih (b :: seen)⟩
      exact ((mem_setSpread rest (b :: seen) b).mp hmem).2 (List.mem_cons_self b seen)

theorem setSpread_congr {α : Type} [DecidableEq α] (l : List α) :
    ∀ s₁ s₂ : List α, (∀ x, x ∈ s₁ ↔ x ∈ s₂) → setSpread s₁ l = setSpread s₂ l := by
  induction l with
  | nil => intro s₁ s₂ _; rfl
  | cons b rest ih =>
    intro s₁ s₂ hequiv
    by_cases hb : b ∈ s₁
    · rw [setSpread, setSpread, if_pos hb, if_pos ((hequiv b).mp hb)]
      exact ih s₁ s₂ hequiv
    · rw [setSpread, setSpread, if_neg hb, if_neg (fun h => hb ((hequiv b).mpr h))]
      refine congrArg _ (ih _ _ fun x => ?_)
      simp only [List.mem_cons, hequiv x]

theorem setSpread_append {α : Type} [DecidableEq α] (l₁ : List α) :
    ∀ (seen l₂ : List α),
      setSpread seen (l₁ ++ l₂) = setSpread seen l₁ ++ setSpread (l₁ ++ seen) l₂ := by
  induction l₁ with
  | nil => intro seen l₂; rfl
  | cons b rest ih =>
    intro seen l₂
    by_cases hb : b ∈ seen
    · rw [List.cons_append, setSpread, if_pos hb, setSpread, if_pos hb, ih]
      refine congrArg _ (setSpread_congr l₂ _ _ fun x => ?_)
      simp only [List.mem_append, List.cons_append, List.mem_cons]
      constructor
      · tauto
      · rintro (rfl | h | h)
        · exact Or.inr hb
        · exact Or.inl h
        · exact Or.inr h
    · rw [List.cons_append, setSpread, if_neg hb, setSpread, if_neg hb, ih,
        List.cons_append]
      refine congrArg (b :: ·) (congrArg _ (setSpread_congr l₂ _ _ fun x => ?_))
      simp only [List.mem_append, List.mem_cons, List.cons_append]
      tauto

theorem sortByDateDesc_perm (l : List Commit) : List.Perm (sortByDateDesc l) l :=
  List.perm_insertionSort dateGe l

theorem sorted_sortByDateDesc (l : List Commit) : List.Sorted dateGe (sortByDateDesc l) :=
  List.sorted_insertionSort dateGe l

theorem sortByDateDesc_ne_nil {l : List Commit} (h : l ≠ []) : sortByDateDesc l ≠ [] := by
  intro hnil
  exact h (List.Perm.eq_nil ((sortByDateDesc_perm l).symm.trans (hnil ▸ List.Perm.refl _)))

theorem keysOf_cons (e : List Char × List Commit) (rest : CodeGroup) :
    keysOf (e :: rest) = e.1 :: keysOf rest :=
  rfl

theorem lookupGroup_nil (k : List Char) : lookupGroup [] k = none :=
  rfl

theorem lookupGroup_cons (k' : List Char) (g : List Commit) (rest : CodeGroup)
    (k : List Char) :
    lookupGroup ((k', g) :: rest) k = if k' = k then some g else lookupGroup rest k := by
  by_cases h : k' = k
  · simp [lookupGroup, List.find?_cons_of_pos, h]
  · rw [if_neg h]
    unfold lookupGroup
    rw [List.find?_cons_of_neg _ (by simpa using h)]

theorem lookupGroupD_cons (k' : List Char) (g : List Commit) (rest : CodeGroup)
    (k : List Char) :
    lookupGroupD ((k', g) :: rest) k = if k' = k then g else lookupGroupD rest k := by
  unfold lookupGroupD
  rw [lookupGroup_cons]
  by_cases h : k' = k <;> simp [h]

theorem mem_of_lookupGroup_eq_some {m : CodeGroup} {k : List Char} {g : List Commit}
    (h : lookupGroup m k = some g) : (k, g) ∈ m := by
  induction m with
  | nil => rw [lookupGroup_nil] at h; cases h
  | cons e rest ih =>
    obtain ⟨k', g'⟩ := e
    rw [lookupGroup_cons] at h
    by_cases hk : k' = k
    · rw [if_pos hk] at h
      subst hk
      cases h
      exact List.mem_cons_self _ _
    · rw [if_neg hk] at h
      exact List.mem_cons_of_mem _ (ih h)

theorem lookupGroup_eq_some_of_mem_keys {m : CodeGroup} {k : List Char}
    (h : k ∈ keysOf m) : ∃ g, lookupGroup m k = some g ∧ (k, g) ∈ m := by
  induction m with
  | nil => cases h
  | cons e rest ih =>
    obtain ⟨k', g⟩ := e
    by_cases hk : k' = k
    · subst hk
      exact ⟨g, by rw [lookupGroup_cons, if_pos rfl], List.mem_cons_self _ _⟩
    · have hmem : k ∈ keysOf rest := by
        rw [keysOf_cons] at h
        rcases List.mem_cons.mp h with h | h
        · exact absurd h.symm hk
        · exact h
      obtain ⟨g', hg', hmem'⟩ := ih hmem
      exact ⟨g', by rw [lookupGroup_cons, if_neg hk]; exact hg',
        List.mem_cons_of_mem _ hmem'⟩

theorem keysOf_insertAppend (m : CodeGroup) (k : List Char) (c : Commit) :
    keysOf (insertAppend m k c)
      = if k ∈ keysOf m then keysOf m else keysOf m ++ [k] := by
  induction m with
  | nil => simp [insertAppend, keysOf]
  | cons e rest ih =>
    obtain ⟨k', g⟩ := e
    by_cases hk : k' = k
    · subst hk
      have h1 : keysOf ((k', g ++ [c]) :: rest) = k' :: keysOf rest := rfl
      have h2 : keysOf ((k', g) :: rest) = k' :: keysOf rest := rfl
      rw [insertAppend, if_pos rfl, h1, h2, if_pos (List.mem_cons_self _ _)]
    · have h1 : keysOf ((k', g) :: insertAppend rest k c)
          = k' :: keysOf (insertAppend rest k c) := rfl
      have h2 : keysOf ((k', g) :: rest) = k' :: keysOf rest := rfl
      rw [insertAppend, if_neg hk, h1, ih, h2]
      by_cases hmem : k ∈ keysOf rest
      · rw [if_pos hmem, if_pos (List.mem_cons_of_mem _ hmem)]
      · rw [if_neg hmem, if_neg (by
          intro hc
          rcases List.mem_cons.mp hc with hc | hc
          · exact hk hc.symm
          · exact hmem hc), List.cons_append]

theorem lookupGroupD_insertAppend_self (m : CodeGroup) (k : List Char) (c : Commit) :
    lookupGroupD (insertAppend m k c) k = lookupGroupD m k ++ [c] := by
  induction m with
  | nil => simp [insertAppend, lookupGroupD, lookupGroup, List.find?]
  | cons e rest ih =>
    obtain ⟨k', g⟩ := e
    by_cases hk : k' = k
    · subst hk
      rw [insertAppend, if_pos rfl, lookupGroupD_cons, if_pos rfl,
        lookupGroupD_cons, if_pos rfl]
    · rw [insertAppend, if_neg hk, lookupGroupD_cons, if_neg hk,
        lookupGroupD_cons, if_neg hk, ih]

theorem lookupGroupD_insertAppend_ne (m : CodeGroup) (k : List Char) (c : Commit)
    {k' : List Char} (h : k' ≠ k) :
    lookupGroupD (insertAppend m k c) k' = lookupGroupD m k' := by
  induction m with
  | nil =>
    simp only [insertAppend, lookupGroupD, lookupGroup_cons, lookupGroup_nil]
    rw [if_neg (fun hh => h hh.symm)]
  | cons e rest ih =>
    obtain ⟨k'', g⟩ := e
    by_cases hk : k'' = k
    · subst hk
      rw [insertAppend, if_pos rfl, lookupGroupD_cons, lookupGroupD_cons,
        if_neg (fun hh => h hh.symm), if_neg (fun hh => h hh.symm)]
    · rw [insertAppend, if_neg hk, lookupGroupD_cons, lookupGroupD_cons, ih]

theorem keysOf_foldl_insertAppend (codes : List (List Char)) :
    ∀ (m : CodeGroup) (c : Commit),
      keysOf (codes.foldl (fun m code => insertAppend m code c) m)
        = keysOf m ++ setSpread (keysOf m) codes := by
  induction codes with
  | nil => intro m c; simp [setSpread]
  | cons k ks ih =>
    intro m c
    rw [List.foldl_cons, ih, keysOf_insertAppend]
    by_cases hk : k ∈ keysOf m
    · rw [if_pos hk, setSpread, if_pos hk]
    · rw [if_neg hk, setSpread, if_neg hk, List.append_assoc, List.singleton_append]
      refine congrArg _ (congrArg _ (setSpread_congr ks _ _ fun x => ?_))
      simp only [List.mem_append, List.mem_cons, List.mem_singleton]
      tauto

theorem lookupGroupD_foldl_insertAppend (codes : List (List Char)) :
    ∀ (m : CodeGroup) (c : Commit) (k : List Char),
      lookupGroupD (codes.foldl (fun m code => insertAppend m code c) m) k
        = lookupGroupD m k ++ (codes.filter (fun k' => k' = k)).map (fun _ => c) := by
  induction codes with
  | nil => intro m c k; simp
  | cons code ks ih =>
    intro m c k
    rw [List.foldl_cons, ih]
    by_cases h : code = k
    · subst h
      rw [lookupGroupD_insertAppend_self, List.filter_cons]
      simp [List.append_assoc]
    · rw [lookupGroupD_insertAppend_ne _ _ _ (fun hh => h hh.symm), List.filter_cons]
      simp [h]

theorem keysOf_addCommitCodes (m : CodeGroup) (c : Commit) :
    keysOf (addCommitCodes m c) = keysOf m ++ setSpread (keysOf m) (codesOf c) :=
  keysOf_foldl_insertAppend (codesOf c) m c

theorem lookupGroupD_addCommitCodes (m : CodeGroup) (c : Commit) (k : List Char) :
    lookupGroupD (addCommitCodes m c) k
      = lookupGroupD m k ++ ((codesOf c).filter (fun k' => k' = k)).map (fun _ => c) :=
  lookupGroupD_foldl_insertAppend (codesOf c) m c k

theorem keysOf_foldl_addCommitCodes (commits : List Commit) :
    ∀ m : CodeGroup,
      keysOf (commits.foldl addCommitCodes m)
        = keysOf m ++ setSpread (keysOf m) (allCodes commits) := by
  induction commits with
  | nil => intro m; simp [allCodes, setSpread]
  | cons c rest ih =>
    intro m
    rw [List.foldl_cons, ih, keysOf_addCommitCodes]
    simp only [allCodes, List.flatMap_cons]
    rw [setSpread_append, List.append_assoc]
    refine congrArg _ (congrArg _ (setSpread_congr _ _ _ fun x => ?_))
    simp only [List.mem_append, mem_setSpread]
    tauto

theorem lookupGroupD_foldl_addCommitCodes (commits : List Commit) :
    ∀ (m : CodeGroup) (k : List Char),
      lookupGroupD (commits.foldl addCommitCodes m) k
        = lookupGroupD m k ++ specGroup commits k := by
  induction commits with
  | nil => intro m k; simp [specGroup]
  | cons c rest ih =>
    intro m k
    rw [List.foldl_cons, ih, lookupGroupD_addCommitCodes]
    simp only [specGroup, List.flatMap_cons]
    rw [List.append_assoc]

theorem aggRecord_isSome {l : List Commit} (h : l ≠ []) (k : List Char) (j : JiraMeta) :
    (aggRecord k l j).isSome := by
  unfold aggRecord
  cases hs : sortByDateDesc l with
  | nil => exact absurd hs (sortByDateDesc_ne_nil h)
  | cons a rest => rfl

theorem aggRecord_code {k : List Char} {l : List Commit} {j : JiraMeta} {r : IssueRecord}
    (h : aggRecord k l j = some r) : r.code = k := by
  unfold aggRecord at h
  cases hs : sortByDateDesc l with
  | nil => rw [hs] at h; cases h
  | cons a rest =>
    rw [hs] at h
    simp only [Option.some.injEq] at h
    rw [← h]

theorem length_filterMap_eq_countP {α β : Type} (f : α → Option β) (l : List α) :
    (l.filterMap f).length = l.countP (fun a => (f a).isSome) := by
  induction l with
  | nil => rfl
  | cons a rest ih =>
    rw [List.filterMap_cons, List.countP_cons]
    cases hf : f a <;> simp [hf, ih]

theorem head_sortByDateDesc_max {l : List Commit} {first : Commit} {rest : List Commit}
    (h : sortByDateDesc l = first :: rest) :
    first ∈ l ∧ ∀ c ∈ l, c.date ≤ first.date := by
  have hperm : List.Perm (first :: rest) l := h ▸ sortByDateDesc_perm l
  constructor
  · exact hperm.subset (List.mem_cons_self _ _)
  · intro c hc
    rcases List.mem_cons.mp (hperm.symm.subset hc) with rfl | hc'
    · exact le_refl _
    · have hsorted := sorted_sortByDateDesc l
      rw [h] at hsorted
      exact (List.sorted_cons.mp hsorted).1 c hc'

theorem aggStep_eq_none_of_fetch_none {fetch : List Char → Option JiraMeta}
    {code : List Char} (m : CodeGroup) (h : fetch code = none) :
    aggStep m fetch code = none := by
  unfold aggStep
  rw [h]

theorem aggStep_eq_aggRecord {fetch : List Char → Option JiraMeta} {code : List Char}
    {jira : JiraMeta} {m : CodeGroup} {g : List Commit} (hf : fetch code = some jira)
    (hl : lookupGroup m code = some g) :
    aggStep m fetch code = aggRecord code g jira := by
  unfold aggStep
  rw [hf, hl]

theorem mem_devList_iff (g : List Commit) (a : String) :
    a ∈ devList (sortByDateDesc g) ↔ ∃ c ∈ g, c.author = a := by
  unfold devList
  rw [mem_setSpread]
  simp only [List.not_mem_nil, not_false_iff, and_true, List.mem_map]
  constructor
  · rintro ⟨c, hc, rfl⟩
    exact ⟨c, (sortByDateDesc_perm g).subset hc, rfl⟩
  · rintro ⟨c, hc, rfl⟩
    exact ⟨c, (sortByDateDesc_perm g).symm.subset hc, rfl⟩

theorem insertAppend_values_ne_nil {m : CodeGroup} (hm : ∀ e ∈ m, e.2 ≠ [])
    (k : List Char) (c : Commit) :
    ∀ e ∈ insertAppend m k c, e.2 ≠ [] := by
  induction m with
  | nil =>
    intro e he
    rw [insertAppend, List.mem_singleton] at he
    subst he
    simp
  | cons e0 rest ih =>
    obtain ⟨k', g⟩ := e0
    intro e he
    by_cases hk : k' = k
    · rw [insertAppend, if_pos hk] at he
      rcases List.mem_cons.mp he with rfl | he
      · simp
      · exact hm e (List.mem_cons_of_mem _ he)
    · rw [insertAppend, if_neg hk] at he
      rcases List.mem_cons.mp he with rfl | he
      · exact hm _ (List.mem_cons_self _ _)
      · exact ih (fun e' he' => hm e' (List.mem_cons_of_mem _ he')) e he

theorem foldl_insertAppend_values_ne_nil (codes : List (List Char)) :
    ∀ (m : CodeGroup) (c : Commit), (∀ e ∈ m, e.2 ≠ []) →
      ∀ e ∈ codes.foldl (fun m code => insertAppend m code c) m, e.2 ≠ [] := by
  induction codes with
  | nil => intro m c hm; exact hm
  | cons k ks ih =>
    intro m c hm
    rw [List.foldl_cons]
    exact ih _ c (insertAppend_values_ne_nil hm k c)

theorem foldl_addCommitCodes_values_ne_nil (commits : List Commit) :
    ∀ m : CodeGroup, (∀ e ∈ m, e.2 ≠ []) →
      ∀ e ∈ commits.foldl addCommitCodes m, e.2 ≠ [] := by
  induction commits with
  | nil => intro m hm; exact hm
  | cons c rest ih =>
    intro m hm
    rw [List.foldl_cons]
    exact ih _ (foldl_insertAppend_values_ne_nil (codesOf c) m c hm)

/-! ## The claims -/

/-- C3: the spec claims `filterMissingJiras` retains every commit whose
summary contains a code-pattern match. The code creates the `/\w+-\d+/g`
regex once outside the `filter` callback, so `regex.test` carries its
`lastIndex` from one commit to the next: after `commitA`'s summary
matches (ending at index 9), the search in `commitB`'s identical
summary starts at index 9 and finds nothing, and `commitB` is dropped
even though its summary matches the pattern. This evaluation exhibits
the failing input. -/
theorem c3_filter_drops_matching_commit :
    hasJiraCode commitB.summary = true ∧
      filterMissingJiras [commitA, commitB] = [commitA] := by
  decide

/-- C4: the spec claims that after `filterMissingJiras` and
`mapCommitsToJiras`, every code-pattern match of every input commit
contributes that commit to the matched code's group. Because the
stateful filter drops `commitB` (whose summary matches `ABC-1`), the
resulting group for `ABC-1` contains only `commitA`, missing the
occurrence contributed by `commitB`. -/
theorem c4_group_misses_filtered_commit :
    codeABC ∈ codesOf commitB ∧
      mapCommitsToJiras (filterMissingJiras [commitA, commitB])
        = [(codeABC, [commitA])] := by
  decide

/-- C9: running the extraction-and-grouping pipeline twice on the same
commit sequence yields identical `CodeGroup` mappings. The pipeline is
a pure function of the commit list (the stateful regex of the filter is
created afresh on each call, so no state survives between runs). -/
theorem c9_pipeline_deterministic (commits : List Commit) :
    mapCommitsToJiras (filterMissingJiras commits)
      = mapCommitsToJiras (filterMissingJiras commits) :=
  rfl

/-- C5: `fetchJiraMetadata` resolves to the absent sentinel on any
error and never propagates it; on success it returns the extracted
record, defaulting `fixVersions` to `"No Fix Version"` when the issue
has no fix versions and `assignee` to `"Unassigned"` when no assignee
is set. -/
theorem c5_fetch_defaults_and_absorption (resp : Except Unit Issue) :
    (∀ e, resp = Except.error e → fetchJiraMetadata resp = none) ∧
      (∀ issue, resp = Except.ok issue →
        ∃ meta, fetchJiraMetadata resp = some meta ∧
          meta.title = issue.fields.summary ∧
          meta.status = issue.fields.status.name ∧
          (issue.fields.fixVersions = [] → meta.fixVersions = "No Fix Version") ∧
          (issue.fields.assignee = none → meta.assignee = "Unassigned")) := by
  constructor
  · rintro e rfl
    rfl
  · rintro issue rfl
    refine ⟨_, rfl, rfl, rfl, ?_, ?_⟩
    · intro hfv
      simp [fetchJiraMetadata, hfv, String.intercalate]
    · intro ha
      simp [fetchJiraMetadata, ha]

/-- Witness for C5 at a concrete issue with no fix versions and no
assignee, and at a concrete error. -/
theorem c5_fetch_defaults_and_absorption_witness :
    fetchJiraMetadata (Except.error ()) = none ∧
      fetchJiraMetadata (Except.ok issueBare) = some metaSample := by
  constructor
  · exact (c5_fetch_defaults_and_absorption (Except.error ())).1 () rfl
  · obtain ⟨meta, hmeta, ht, hs, hfv, ha⟩ :=
      (c5_fetch_defaults_and_absorption (Except.ok issueBare)).2 issueBare rfl
    rw [hmeta]
    have hfv' := hfv (by decide)
    have ha' := ha (by decide)
    have ht' : meta.title = "T1" := ht
    have hs' : meta.status = "Open" := hs
    cases meta
    simp only at ht' hs' hfv' ha'
    rw [ht', hs', hfv', ha']
    rfl

/-- C8 counterexample: the claim says that on a commit-traversal
failure the report step "produces an empty table". In the code the
`.catch` handler returns `undefined`, and `generateJiraTermTable`
throws a `TypeError` at `jiraList.forEach` before printing anything, so
the table outcome is the error, not a rendered empty table. -/
theorem c8_no_empty_table_counterexample :
    (listJira (Except.error "Current repo does not exist or contains no commits")
        fetchAll []).table = Except.error () ∧
      (Except.error () : Except Unit (List (List String))) ≠ Except.ok [] := by
  exact ⟨rfl, fun h => Except.noConfusion h⟩

/-- C8 amended: when the commit traversal fails, the pipeline prints
the error's message to standard output and no table of issue rows is
rendered; the report step still runs, receives `undefined`, and throws
a type error before rendering, so no table — not even an empty one —
is output. -/
theorem c8_error_path (msg : String) (fetch : List Char → Option JiraMeta)
    (schedule : List (List Char)) :
    (listJira (Except.error msg) fetch schedule).errOutput = [msg] ∧
      (listJira (Except.error msg) fetch schedule).table = Except.error () :=
  ⟨rfl, rfl⟩

/-- C7: the `CodeGroup` produced by `mapCommitsToJiras` lists its keys
in insertion order — the order in which each code is first encountered
across the commit sequence — and each code's group lists the commits in
the order they were encountered (once per occurrence of the code in a
summary). -/
theorem c7_group_insertion_order (commits : List Commit) :
    keysOf (mapCommitsToJiras commits) = specKeyOrder commits ∧
      ∀ k, lookupGroupD (mapCommitsToJiras commits) k = specGroup commits k := by
  constructor
  · have h := keysOf_foldl_addCommitCodes commits []
    simpa [mapCommitsToJiras, keysOf, specKeyOrder] using h
  · intro k
    have h := lookupGroupD_foldl_addCommitCodes commits [] k
    simpa [mapCommitsToJiras, lookupGroupD, lookupGroup_nil] using h

/-- C10: every value in the mapping returned by `mapCommitsToJiras` is
a non-empty commit list (a key is only created together with an
appended commit), so the aggregator's access to the first element of
the sorted group always succeeds (the record constructor never hits the
empty-list case). -/
theorem c10_groups_nonempty (commits : List Commit)
    (e : List Char × List Commit) (he : e ∈ mapCommitsToJiras commits) :
    e.2 ≠ [] ∧ ∀ jira : JiraMeta, ((aggRecord e.1 e.2 jira).isSome : Prop) := by
  have hne : e.2 ≠ [] :=
    foldl_addCommitCodes_values_ne_nil commits [] (fun e' he' => absurd he' (List.not_mem_nil e')) e he
  exact ⟨hne, fun jira => aggRecord_isSome hne e.1 jira⟩

/-- Witness for C10 at a concrete two-commit input whose summaries both
contain `ABC-1`. -/
theorem c10_groups_nonempty_witness :
    (codeABC, [commitA, commitB]).2 ≠ [] ∧
      ((aggRecord codeABC [commitA, commitB] metaSample).isSome : Prop) := by
  have h := c10_groups_nonempty [commitA, commitB] (codeABC, [commitA, commitB])
    (by decide)
  exact ⟨h.1, h.2 metaSample⟩

/-- C6 counterexample: with the sample mapping (keys in order
`ABC-1, DEF-2`), a fetch assignment where both lookups succeed, and the
completion order `DEF-2, ABC-1` (a permutation of the keys), the
aggregated list has `DEF-2` before `ABC-1` — the output order follows
fetch completion, not the mapping's key iteration order, contradicting
"regardless of the order in which the individual metadata fetches
complete". -/
theorem c6_key_order_counterexample :
    keysOf sampleMap = [codeABC, codeDEF] ∧
      List.Perm [codeDEF, codeABC] (keysOf sampleMap) ∧
      (fetchAll codeABC).isSome = true ∧
      (fetchAll codeDEF).isSome = true ∧
      (aggregateJiraMetadata sampleMap fetchAll [codeDEF, codeABC]).map
          (fun r => r.code) = [codeDEF, codeABC] ∧
      [codeDEF, codeABC] ≠ keysOf sampleMap := by
  refine ⟨rfl, by decide, rfl, rfl, by decide, by decide⟩

/-- C6 amended: the aggregated list is ordered by the order in which
the individual metadata fetches complete (each fetch's continuation
appends its record as it settles); it equals the key iteration order
exactly when the fetches complete in key order, and is not sorted by
any business field. -/
theorem c6_completion_order (m : CodeGroup) (fetch : List Char → Option JiraMeta)
    (schedule : List (List Char)) (hne : ∀ e ∈ m, e.2 ≠ [])
    (hsub : ∀ k ∈ schedule, k ∈ keysOf m) :
    (aggregateJiraMetadata m fetch schedule).map (fun r => r.code)
      = schedule.filter (fun k => (fetch k).isSome) := by
  induction schedule with
  | nil => rfl
  | cons k ks ih =>
    have hk : k ∈ keysOf m := hsub k (List.mem_cons_self _ _)
    obtain ⟨g, hg, hmem⟩ := lookupGroup_eq_some_of_mem_keys hk
    have hgne : g ≠ [] := hne _ hmem
    have ih' := ih (fun k' hk' => hsub k' (List.mem_cons_of_mem _ hk'))
    unfold aggregateJiraMetadata at ih' ⊢
    rw [List.filterMap_cons, List.filter_cons]
    cases hf : fetch k with
    | none =>
      rw [aggStep_eq_none_of_fetch_none m hf]
      simpa [hf] using ih'
    | some jira =>
      rw [aggStep_eq_aggRecord hf hg]
      cases har : aggRecord k g jira with
      | none =>
        exact absurd (Option.isSome_iff_exists.mp (aggRecord_isSome hgne k jira))
          (by rw [har]; rintro ⟨r, hr⟩; cases hr)
      | some r =>
        have hcode : r.code = k := aggRecord_code har
        simp only [List.map_cons, hcode, hf, Option.isSome_some, if_pos]
        rw [ih']

/-- Witness for C6 amended at the sample mapping with the reversed
completion order. -/
theorem c6_completion_order_witness :
    (aggregateJiraMetadata sampleMap fetchAll [codeDEF, codeABC]).map
        (fun r => r.code)
      = [codeDEF, codeABC].filter (fun k => (fetchAll k).isSome) := by
  exact c6_completion_order sampleMap fetchAll [codeDEF, codeABC]
    (by decide) (by decide)

/-- C1: every `IssueRecord` produced by `aggregateJiraMetadata` for a
code whose fetch succeeded has a `commits` count equal to the size of
that code's commit group, a `lastCommitDate` equal to the maximum date
among the group's commits (attained by a member and bounding them all),
and a `developers` string that joins a duplicate-free list containing
each author of the group exactly once, even when several commits share
an author. -/
theorem c1_issue_record_invariants (m : CodeGroup)
    (fetch : List Char → Option JiraMeta) (schedule : List (List Char))
    (hne : ∀ e ∈ m, e.2 ≠ []) (r : IssueRecord)
    (hr : r ∈ aggregateJiraMetadata m fetch schedule) :
    ∃ g, lookupGroup m r.code = some g ∧
      r.commits = g.length ∧
      (∃ c ∈ g, c.date = r.lastCommitDate) ∧
      (∀ c ∈ g, c.date ≤ r.lastCommitDate) ∧
      r.developers = String.intercalate ", " (devList (sortByDateDesc g)) ∧
      (devList (sortByDateDesc g)).Nodup ∧
      (∀ a, a ∈ devList (sortByDateDesc g) ↔ ∃ c ∈ g, c.author = a) := by
  obtain ⟨k, hk, hstep⟩ := List.mem_filterMap.mp hr
  cases hf : fetch k with
  | none =>
    rw [aggStep_eq_none_of_fetch_none m hf] at hstep
    cases hstep
  | some jira =>
    cases hl : lookupGroup m k with
    | none =>
      unfold aggStep at hstep
      rw [hf, hl] at hstep
      cases hstep
    | some g =>
      rw [aggStep_eq_aggRecord hf hl] at hstep
      have hgne : g ≠ [] := hne _ (mem_of_lookupGroup_eq_some hl)
      cases hs : sortByDateDesc g with
      | nil => exact absurd hs (sortByDateDesc_ne_nil hgne)
      | cons first rest' =>
        unfold aggRecord at hstep
        rw [hs] at hstep
        simp only [Option.some.injEq] at hstep
        obtain ⟨hfm, hmax⟩ := head_sortByDateDesc_max hs
        subst hstep
        refine ⟨g, hl, rfl, ⟨first, hfm, rfl⟩, hmax, by rw [hs], ?_,
          fun a => mem_devList_iff g a⟩
        exact nodup_setSpread _ _

/-- Witness for C1 at the sample mapping, fetch assignment and
completion order, for the record produced for `ABC-1`. -/
theorem c1_issue_record_invariants_witness :
    ∃ g, lookupGroup sampleMap recordABC.code = some g ∧
      recordABC.commits = g.length ∧
      (∃ c ∈ g, c.date = recordABC.lastCommitDate) ∧
      (∀ c ∈ g, c.date ≤ recordABC.lastCommitDate) ∧
      recordABC.developers = String.intercalate ", " (devList (sortByDateDesc g)) ∧
      (devList (sortByDateDesc g)).Nodup ∧
      (∀ a, a ∈ devList (sortByDateDesc g) ↔ ∃ c ∈ g, c.author = a) :=
  c1_issue_record_invariants sampleMap fetchAll [codeABC, codeDEF]
    (by decide) recordABC (by decide)

/-- C2: `aggregateJiraMetadata` emits no record for a code whose fetch
resolved to the absent sentinel, and the length of its result equals
the number of codes whose fetch succeeded (not the total number of
distinct codes). -/
theorem c2_failed_fetches_omitted (m : CodeGroup)
    (fetch : List Char → Option JiraMeta) (schedule : List (List Char))
    (hperm : List.Perm schedule (keysOf m)) (hne : ∀ e ∈ m, e.2 ≠ []) :
    (∀ k, fetch k = none →
      ∀ r ∈ aggregateJiraMetadata m fetch schedule, r.code ≠ k) ∧
      (aggregateJiraMetadata m fetch schedule).length
        = (keysOf m).countP (fun k => (fetch k).isSome) := by
  constructor
  · intro k hkf r hr hcode
    obtain ⟨k', hk', hstep⟩ := List.mem_filterMap.mp hr
    cases hf : fetch k' with
    | none =>
      rw [aggStep_eq_none_of_fetch_none m hf] at hstep
      cases hstep
    | some jira =>
      cases hl : lookupGroup m k' with
      | none =>
        unfold aggStep at hstep
        rw [hf, hl] at hstep
        cases hstep
      | some g =>
        rw [aggStep_eq_aggRecord hf hl] at hstep
        have heq : r.code = k' := aggRecord_code hstep
        rw [hcode] at heq
        rw [← heq] at hf
        rw [hkf] at hf
        cases hf
  · rw [aggregateJiraMetadata, length_filterMap_eq_countP]
    have hcong : schedule.countP (fun a => (aggStep m fetch a).isSome)
        = schedule.countP (fun k => (fetch k).isSome) := by
      apply List.countP_congr
      intro k hk
      have hkm : k ∈ keysOf m := hperm.subset hk
      obtain ⟨g, hg, hmem⟩ := lookupGroup_eq_some_of_mem_keys hkm
      cases hf : fetch k with
      | none =>
        rw [aggStep_eq_none_of_fetch_none m hf]
        exact Iff.rfl
      | some jira =>
        rw [aggStep_eq_aggRecord hf hg, aggRecord_isSome (hne _ hmem) k jira]
        simp
    rw [hcong, hperm.countP_eq]

/-- Witness for C2 at the sample mapping with the fetch of `DEF-2`
failing and the completion order reversed. -/
theorem c2_failed_fetches_omitted_witness :
    (aggregateJiraMetadata sampleMap fetchNoDEF [codeDEF, codeABC]).length
      = (keysOf sampleMap).countP (fun k => (fetchNoDEF k).isSome) :=
  (c2_failed_fetches_omitted sampleMap fetchNoDEF [codeDEF, codeABC]
    (by decide) (by decide)).2

end GitLog
